import Mathlib

/-!
Verification of the RecipeSelectionSystem core against its specification.

This file gives a shallow embedding of the two algorithmic modules of the
repository and proves the spec claims about them:

  recipe_system/logic.py   - the safe boolean-expression evaluator
                             (parse_vars, eval_expr, truth_table)
  recipe_system/sorting.py - the two sorting strategies
                             (BubbleSort.sort, MergeSort.sort)

The Python front end uses ast.parse to turn expression text into a tree;
parsing itself (and the textual AND/OR/NOT normalization preceding it) is
external to the embedding.  The embedding starts from the parsed tree: the
type PyAst below mirrors the Python ast node shapes that can occur in an
expression parsed in eval mode and that the code in logic.py inspects.
Concrete expression strings appearing in the claims are embedded as their
(hand-derived, deterministic) parse trees.
-/

deriving instance DecidableEq for Except

namespace Recipe

/-- Mirror of the Python ast expression nodes handled (or rejected) by
recipe_system/logic.py.  The Expression wrapper node is not modelled: both
_eval_node and ast.walk treat it transparently, so trees here stand for the
body of the parsed expression.  Operator atoms (ast.And, ast.Add, ...) are
folded into their parent constructor, faithful to every use the source makes
of the tree (isinstance checks on node classes and the .id of Name nodes).
An ast.Assign node is in the source denylist but cannot occur in an
eval-mode parse, so it has no constructor. -/
inductive PyAst where
  | name (id : String)
  | boolAnd (values : List PyAst)
  | boolOr (values : List PyAst)
  | notOp (operand : PyAst)
  | uSub (operand : PyAst)
  | constBool (b : Bool)
  | constNum (n : Int)
  | constStr (s : String)
  | constNone
  | binOp (left right : PyAst)
  | compare (left right : PyAst)
  | attrAccess (value : PyAst) (attr : String)
  | subscript (value : PyAst) (index : PyAst)
  | call (func : PyAst) (args : List PyAst)
deriving Repr

/-- The LogicEvalError exception of logic.py, split by the message it
carries.  unknownVariable is "Unknown variable: x", unsupportedOperator is
the "Unsupported operator" raised for a non-not unary operator,
unsupportedOperation is the _eval_node fallthrough "Unsupported operation:
<type>", and unsupportedConstruct is the validation message of eval_expr
("Only boolean expressions with variables, and/or/not, and parentheses are
allowed").  Parse failures ("Syntax error") happen before the embedded
stage and are not represented. -/
inductive LogicEvalError where
  | unknownVariable (id : String)
  | unsupportedOperator
  | unsupportedOperation (nodeType : String)
  | unsupportedConstruct
deriving Repr, DecidableEq

/-- Evaluation environment: the Dict[str, bool] of logic.py, as an
association list (all environments the code builds have distinct keys). -/
abbrev Env := List (String × Bool)

mutual

/-- All nodes of the tree, the node itself included: the node sequence
produced by ast.walk(tree) in eval_expr (walk order differs, but the code
only ever asks whether SOME walked node has a given shape). -/
def PyAst.nodes : PyAst → List PyAst
  | .name i => [.name i]
  | .boolAnd vs => .boolAnd vs :: PyAst.nodesList vs
  | .boolOr vs => .boolOr vs :: PyAst.nodesList vs
  | .notOp e => .notOp e :: e.nodes
  | .uSub e => .uSub e :: e.nodes
  | .constBool b => [.constBool b]
  | .constNum n => [.constNum n]
  | .constStr s => [.constStr s]
  | .constNone => [.constNone]
  | .binOp l r => .binOp l r :: (l.nodes ++ r.nodes)
  | .compare l r => .compare l r :: (l.nodes ++ r.nodes)
  | .attrAccess v a => .attrAccess v a :: v.nodes
  | .subscript v i => .subscript v i :: (v.nodes ++ i.nodes)
  | .call f args => .call f args :: (f.nodes ++ PyAst.nodesList args)

/-- Nodes of a list of trees, concatenated. -/
def PyAst.nodesList : List PyAst → List PyAst
  | [] => []
  | t :: ts => t.nodes ++ PyAst.nodesList ts

end

/-- The isinstance(node, tuple(invalid_nodes)) test of eval_expr:
invalid_nodes is [BinOp, Compare, Attribute, Subscript, Assign] plus the
legacy ast.Num and ast.Str classes.  In every Python version that has them,
isinstance(Constant(v), Num) holds exactly for int/float/complex values v
with bool excluded, and isinstance(Constant(v), Str) exactly for str
values; a Constant holding None or True/False matches neither, and Assign
cannot occur in an eval-mode tree. -/
def isInvalidType : PyAst → Bool
  | .binOp _ _ => true
  | .compare _ _ => true
  | .attrAccess _ _ => true
  | .subscript _ _ => true
  | .constNum _ => true
  | .constStr _ => true
  | _ => false

/-- The forbidden-construct list as claim C1 states it: function/call
expressions, binary arithmetic or comparison operators, attribute access,
indexing, assignment, and literals other than boolean constants. -/
def claimForbidden : PyAst → Bool
  | .call _ _ => true
  | .binOp _ _ => true
  | .compare _ _ => true
  | .attrAccess _ _ => true
  | .subscript _ _ => true
  | .constNum _ => true
  | .constStr _ => true
  | .constNone => true
  | _ => false

/-- The variable occurrences collected by _collect_vars (logic.py): the id
of every ast.Name node anywhere in the tree.  _collect_vars visits every
node recursively and records ids into a set; the multiset of ids gathered
is exactly the Name nodes of the walk. -/
def collectVars (t : PyAst) : List String :=
  t.nodes.filterMap fun s =>
    match s with
    | .name i => some i
    | _ => none

/-- Insertion into a strictly sorted list of names, keeping it sorted and
duplicate-free: used to realise the sorted(set(...)) of parse_vars.
Python compares str values lexicographically by code point, which is the
lexicographic order of the underlying character lists; the comparison is
written on .data so that it also evaluates inside the kernel. -/
def insertVar (s : String) : List String → List String
  | [] => [s]
  | x :: xs =>
    if s = x then x :: xs
    else if s.data < x.data then s :: x :: xs
    else x :: insertVar s xs

/-- parse_vars (logic.py): collect all variable names and return them as a
sorted list of unique names (sorted(vars_set) over the collected set). -/
def parse_vars (t : PyAst) : List String :=
  (collectVars t).foldr insertVar []

mutual

/-- _eval_node (logic.py): recursively evaluates a node.  Name looks the id
up in env (bool(env[id]) is the identity on a bool value) and fails with
UnknownVariable when absent; not negates; And/Or use Python's all()/any()
over a generator, which short-circuits, stopping at the first False
(resp. True) operand and never evaluating later ones; a boolean Constant is
itself; everything else falls through to the Unsupported operation error
(a non-not unary operator fails earlier with Unsupported operator). -/
def evalNode (env : Env) : PyAst → Except LogicEvalError Bool
  | .name id =>
    match env.lookup id with
    | some v => .ok v
    | none => .error (.unknownVariable id)
  | .notOp e => do
    let b ← evalNode env e
    pure (!b)
  | .uSub _ => .error .unsupportedOperator
  | .boolAnd vs => evalAllNodes env vs
  | .boolOr vs => evalAnyNodes env vs
  | .constBool b => .ok b
  | .constNum _ => .error (.unsupportedOperation "Constant")
  | .constStr _ => .error (.unsupportedOperation "Constant")
  | .constNone => .error (.unsupportedOperation "Constant")
  | .binOp _ _ => .error (.unsupportedOperation "BinOp")
  | .compare _ _ => .error (.unsupportedOperation "Compare")
  | .attrAccess _ _ => .error (.unsupportedOperation "Attribute")
  | .subscript _ _ => .error (.unsupportedOperation "Subscript")
  | .call _ _ => .error (.unsupportedOperation "Call")

/-- all(_eval_node(v, env) for v in values): true on the empty list, stops
at the first operand evaluating to false; an error raised by an operand
that is actually evaluated propagates. -/
def evalAllNodes (env : Env) : List PyAst → Except LogicEvalError Bool
  | [] => .ok true
  | v :: vs => do
    let b ← evalNode env v
    if b then evalAllNodes env vs else pure false

/-- any(_eval_node(v, env) for v in values): false on the empty list, stops
at the first operand evaluating to true. -/
def evalAnyNodes (env : Env) : List PyAst → Except LogicEvalError Bool
  | [] => .ok false
  | v :: vs => do
    let b ← evalNode env v
    if b then pure true else evalAnyNodes env vs

end

/-- eval_expr (logic.py), from the parsed tree on: scan every walked node
for the invalid types and fail with the UnsupportedConstruct message if one
is found, otherwise evaluate with _eval_node (the final bool(...) is the
identity since _eval_node already returns a bool). -/
def eval_expr (t : PyAst) (env : Env) : Except LogicEvalError Bool :=
  if t.nodes.any isInvalidType then .error .unsupportedConstruct
  else evalNode env t

/-- The bit expression (mask >> (n - i - 1)) & 1 of truth_table. -/
def maskBit (n mask i : Nat) : Nat :=
  (mask >>> (n - i - 1)) &&& 1

/-- The vals list built for one mask in truth_table: the bit of each
variable index i in 0..n-1, most significant bit first. -/
def rowVals (n mask : Nat) : List Nat :=
  (List.range n).map (maskBit n mask)

/-- The env dict built for one mask in truth_table: iterating
enumerate(vars_) from index i, each variable is bound to bool(bit). -/
def rowEnv (n mask : Nat) : Nat → List String → Env
  | _, [] => []
  | i, v :: vs => (v, maskBit n mask i == 1) :: rowEnv n mask (i + 1) vs

/-- The row loop of truth_table over the remaining masks: for each mask
build vals and env, evaluate the expression (an exception aborts the whole
call), and record (vals, 1 if res else 0). -/
def ttRows (t : PyAst) (vars : List String) (n : Nat) :
    List Nat → Except LogicEvalError (List (List Nat × Nat))
  | [] => .ok []
  | mask :: rest => do
    let res ← eval_expr t (rowEnv n mask 0 vars)
    let tail ← ttRows t vars n rest
    .ok ((rowVals n mask, if res then 1 else 0) :: tail)

/-- truth_table (logic.py): vars_ = parse_vars(expr); for mask in
range(1 << n) build the row; return (vars_, rows).  The env_template
parameter is accepted (default None in the source) and never read. -/
def truth_table (t : PyAst) (env_template : Option Env) :
    Except LogicEvalError (List String × List (List Nat × Nat)) := do
  let vars := parse_vars t
  let n := vars.length
  let rows ← ttRows t vars n (List.range (1 <<< n))
  .ok (vars, rows)

/-- Parse tree of "A and B" (claims C6/C7). -/
def astAandB : PyAst := .boolAnd [.name "A", .name "B"]

/-- Parse tree of "A + B" (claims C8/C10). -/
def astAplusB : PyAst := .binOp (.name "A") (.name "B")

/-- Parse tree of "A == B" (claim C8). -/
def astAeqB : PyAst := .compare (.name "A") (.name "B")

/-- Parse tree of "f(A)" (claim C8). -/
def astFofA : PyAst := .call (.name "f") [.name "A"]

/-- Parse tree of "True or f(A)" (counterexample to claim C1). -/
def astTrueOrFofA : PyAst := .boolOr [.constBool true, astFofA]

/-- Parse tree of "A or B" (counterexample to claim C2). -/
def astAorB : PyAst := .boolOr [.name "A", .name "B"]

/-- The sublanguage in which evaluation visits every node: no and/or means
nothing can be skipped by short-circuiting (claim C2, amended form). -/
def noShortCircuit : PyAst → Bool
  | .name _ => true
  | .notOp e => noShortCircuit e
  | .constBool _ => true
  | _ => false

/-! Facts about variable collection and parse_vars. -/

theorem strLt_iff (a b : String) : a < b ↔ a.data < b.data := by
  rw [String.lt_iff_toList_lt]; rfl

theorem mem_insertVar (s y : String) (l : List String) :
    y ∈ insertVar s l ↔ y = s ∨ y ∈ l := by
  induction l with
  | nil => simp [insertVar]
  | cons x xs ih =>
    by_cases h1 : s = x
    · subst h1
      simp only [insertVar, if_pos rfl]
      constructor
      · intro h; exact Or.inr h
      · rintro (h | h)
        · exact h ▸ List.mem_cons_self _ _
        · exact h
    · by_cases h2 : s.data < x.data
      · simp only [insertVar, if_neg h1, if_pos h2, List.mem_cons]
      · simp only [insertVar, if_neg h1, if_neg h2, List.mem_cons, ih]
        tauto

theorem sorted_insertVar (s : String) (l : List String)
    (h : l.Pairwise (· < ·)) : (insertVar s l).Pairwise (· < ·) := by
  induction l with
  | nil => simp [insertVar]
  | cons x xs ih =>
    rw [List.pairwise_cons] at h
    obtain ⟨hx, hxs⟩ := h
    by_cases h1 : s = x
    · subst h1
      simp only [insertVar, if_pos rfl]
      exact List.pairwise_cons.mpr ⟨hx, hxs⟩
    · by_cases h2 : s.data < x.data
      · have hsx : s < x := (strLt_iff s x).mpr h2
        simp only [insertVar, if_neg h1, if_pos h2]
        refine List.pairwise_cons.mpr ⟨?_, List.pairwise_cons.mpr ⟨hx, hxs⟩⟩
        intro y hy
        rcases List.mem_cons.mp hy with hy | hy
        · exact hy ▸ hsx
        · exact lt_trans hsx (hx y hy)
      · have hxlt : x < s := by
          rcases lt_trichotomy s x with hlt | heq | hgt
          · exact absurd ((strLt_iff s x).mp hlt) h2
          · exact absurd heq h1
          · exact hgt
        simp only [insertVar, if_neg h1, if_neg h2]
        refine List.pairwise_cons.mpr ⟨?_, ih hxs⟩
        intro y hy
        rcases (mem_insertVar s y xs).mp hy with hy | hy
        · exact hy ▸ hxlt
        · exact hx y hy

theorem sorted_foldr_insertVar (l : List String) :
    (l.foldr insertVar []).Pairwise (· < ·) := by
  induction l with
  | nil => simp
  | cons x xs ih => exact sorted_insertVar x _ ih

theorem mem_foldr_insertVar (l : List String) (y : String) :
    y ∈ l.foldr insertVar [] ↔ y ∈ l := by
  induction l with
  | nil => simp
  | cons x xs ih =>
    simp only [List.foldr_cons, mem_insertVar, ih, List.mem_cons]

/-- parse_vars returns a strictly sorted list (ascending lexical order on
names, the order of Python's sorted on str). -/
theorem parse_vars_sorted (t : PyAst) : (parse_vars t).Pairwise (· < ·) :=
  sorted_foldr_insertVar _

theorem parse_vars_nodup (t : PyAst) : (parse_vars t).Nodup :=
  (parse_vars_sorted t).imp ne_of_lt

theorem mem_parse_vars (t : PyAst) (y : String) :
    y ∈ parse_vars t ↔ y ∈ collectVars t :=
  mem_foldr_insertVar _ _

/-- The names collected are exactly the ids of the Name nodes occurring
anywhere in the tree. -/
theorem mem_collectVars (t : PyAst) (x : String) :
    x ∈ collectVars t ↔ PyAst.name x ∈ t.nodes := by
  rw [collectVars, List.mem_filterMap]
  constructor
  · rintro ⟨s, hs, hsx⟩
    cases s <;> simp_all
  · intro h
    exact ⟨.name x, h, rfl⟩

/-! Claim C1: validation versus evaluation-time rejection. -/

/-- C1 (amended): if the parsed tree contains, anywhere, one of the
constructs the validation denylist of eval_expr covers - a binary
arithmetic operator, a comparison, attribute access, indexing, or a
numeric/string literal - then eval_expr fails with the UnsupportedConstruct
error before any evaluation, for every environment.  (Call expressions and
literals such as None are NOT in the denylist: they are rejected only if
evaluation reaches them, and short-circuit evaluation can skip them - see
the counterexample.) -/
theorem claim_C1_amended (t : PyAst) (env : Env)
    (h : ∃ s ∈ t.nodes, isInvalidType s = true) :
    eval_expr t env = .error .unsupportedConstruct := by
  have hv : t.nodes.any isInvalidType = true := List.any_eq_true.mpr h
  simp [eval_expr, hv]

theorem claim_C1_witness :
    eval_expr astAplusB [("A", true), ("B", true)] =
      .error .unsupportedConstruct :=
  claim_C1_amended astAplusB [("A", true), ("B", true)]
    ⟨astAplusB, by rw [show astAplusB.nodes = [astAplusB, .name "A", .name "B"] from rfl]
                   exact List.mem_cons_self _ _, rfl⟩

/-- C1 is false as stated: the tree of "True or f(A)" contains a call
expression (a forbidden construct per the claim), yet eval_expr returns a
result: validation does not cover Call nodes and the or short-circuits
before evaluating the call. -/
theorem claim_C1_counterexample :
    (∃ s ∈ astTrueOrFofA.nodes, claimForbidden s = true) ∧
    eval_expr astTrueOrFofA [] = .ok true := by
  constructor
  · refine ⟨astFofA, ?_, rfl⟩
    rw [show astTrueOrFofA.nodes =
      [astTrueOrFofA, .constBool true, astFofA, .name "f", .name "A"] from rfl]
    exact List.mem_cons_of_mem _ (List.mem_cons_of_mem _ (List.mem_cons_self _ _))
  · decide

/-! Claim C2: unknown variables versus short-circuiting. -/

theorem noShortCircuit_valid : ∀ t : PyAst, noShortCircuit t = true →
    t.nodes.any isInvalidType = false
  | .name _, _ => rfl
  | .constBool _, _ => rfl
  | .notOp e, h => by
    have ih := noShortCircuit_valid e (by simpa [noShortCircuit] using h)
    simp only [PyAst.nodes, List.any_cons, ih]
    rfl
  | .boolAnd _, h => by simp [noShortCircuit] at h
  | .boolOr _, h => by simp [noShortCircuit] at h
  | .uSub _, h => by simp [noShortCircuit] at h
  | .constNum _, h => by simp [noShortCircuit] at h
  | .constStr _, h => by simp [noShortCircuit] at h
  | .constNone, h => by simp [noShortCircuit] at h
  | .binOp _ _, h => by simp [noShortCircuit] at h
  | .compare _ _, h => by simp [noShortCircuit] at h
  | .attrAccess _ _, h => by simp [noShortCircuit] at h
  | .subscript _ _, h => by simp [noShortCircuit] at h
  | .call _ _, h => by simp [noShortCircuit] at h

theorem evalNode_unknown : ∀ (t : PyAst) (env : Env),
    noShortCircuit t = true →
    (∃ x ∈ collectVars t, env.lookup x = none) →
    ∃ x, env.lookup x = none ∧ evalNode env t = .error (.unknownVariable x)
  | .name i, env, _, hx => by
    obtain ⟨x, hmem, hnone⟩ := hx
    have hxi : x = i := by
      simpa [collectVars, PyAst.nodes] using hmem
    subst hxi
    exact ⟨x, hnone, by simp [evalNode, hnone]⟩
  | .notOp e, env, h, hx => by
    obtain ⟨x, hnone, herr⟩ := evalNode_unknown e env
      (by simpa [noShortCircuit] using h)
      (by simpa [collectVars, PyAst.nodes] using hx)
    refine ⟨x, hnone, ?_⟩
    rw [evalNode]
    rw [herr]
    rfl
  | .constBool _, env, _, hx => by
    simp [collectVars, PyAst.nodes] at hx
  | .boolAnd _, _, h, _ => by simp [noShortCircuit] at h
  | .boolOr _, _, h, _ => by simp [noShortCircuit] at h
  | .uSub _, _, h, _ => by simp [noShortCircuit] at h
  | .constNum _, _, h, _ => by simp [noShortCircuit] at h
  | .constStr _, _, h, _ => by simp [noShortCircuit] at h
  | .constNone, _, h, _ => by simp [noShortCircuit] at h
  | .binOp _ _, _, h, _ => by simp [noShortCircuit] at h
  | .compare _ _, _, h, _ => by simp [noShortCircuit] at h
  | .attrAccess _ _, _, h, _ => by simp [noShortCircuit] at h
  | .subscript _ _, _, h, _ => by simp [noShortCircuit] at h
  | .call _ _, _, h, _ => by simp [noShortCircuit] at h

/-- C2 (amended): a variable absent from env is never coerced to false -
whenever evaluation actually reaches the reference it fails with
UnknownVariable.  In particular, for every expression of the
short-circuit-free sublanguage (no and/or), referencing any variable
absent from env makes eval_expr fail with UnknownVariable.  (In general
the and/or short-circuiting of _eval_node can skip the reference entirely
and succeed - see the counterexample.) -/
theorem claim_C2_amended (t : PyAst) (env : Env)
    (h1 : noShortCircuit t = true)
    (h2 : ∃ x ∈ collectVars t, env.lookup x = none) :
    ∃ x, env.lookup x = none ∧
      eval_expr t env = .error (.unknownVariable x) := by
  obtain ⟨x, hnone, herr⟩ := evalNode_unknown t env h1 h2
  exact ⟨x, hnone, by simp [eval_expr, noShortCircuit_valid t h1, herr]⟩

theorem claim_C2_witness :
    ∃ x, List.lookup x ([] : Env) = none ∧
      eval_expr (PyAst.notOp (.name "A")) [] = .error (.unknownVariable x) :=
  claim_C2_amended (.notOp (.name "A")) [] rfl ⟨"A", by decide, rfl⟩

/-- C2 is false as stated: "A or B" references B, which is absent from the
environment, yet eval_expr succeeds because any() short-circuits on the
true value of A and never looks B up. -/
theorem claim_C2_counterexample :
    ("B" ∈ collectVars astAorB ∧
      List.lookup "B" [("A", true)] = none) ∧
    eval_expr astAorB [("A", true)] = .ok true :=
  ⟨⟨by decide, rfl⟩, by decide⟩

/-! Claims C7, C8, C9, C10. -/

/-- C7: the truth table of "A and B" is exactly the claimed one: variables
A, B in that order and the four rows in increasing mask order with results
0, 0, 0, 1. -/
theorem claim_C7 :
    truth_table astAandB none =
      .ok (["A", "B"],
        [([0, 0], 0), ([0, 1], 0), ([1, 0], 0), ([1, 1], 1)]) := by decide

/-- C8: each of "A + B", "A == B" and "f(A)" makes eval_expr fail for
every environment, with an unsupported-construct class error (the spec's
UnsupportedConstruct category), never returning a boolean: the first two
are caught by validation, the call by _eval_node when it reaches the Call
node. -/
theorem claim_C8 (env : Env) :
    eval_expr astAplusB env = .error .unsupportedConstruct ∧
    eval_expr astAeqB env = .error .unsupportedConstruct ∧
    eval_expr astFofA env = .error (.unsupportedOperation "Call") :=
  ⟨rfl, rfl, rfl⟩

/-- C9: truth_table ignores its env_template parameter entirely: the
result for any supplied template equals the result for None. -/
theorem claim_C9 (t : PyAst) (tpl : Option Env) :
    truth_table t tpl = truth_table t none := rfl

/-! Claim C6: structure of truth_table output. -/

theorem rowEnv_lookup (n mask : Nat) :
    ∀ (vars : List String), vars.Nodup →
      ∀ (start i : Nat) (hi : i < vars.length),
        (rowEnv n mask start vars).lookup (vars.get ⟨i, hi⟩) =
          some (maskBit n mask (start + i) == 1)
  | [], _, _, i, hi => by simp at hi
  | v :: vs, _, start, 0, _ => by
    simp [rowEnv, List.lookup]
  | v :: vs, hnd, start, i + 1, hi => by
    have hvs : i < vs.length := by simpa using Nat.lt_of_succ_lt_succ hi
    have hvne : vs.get ⟨i, hvs⟩ ≠ v := by
      have hv : v ∉ vs := (List.nodup_cons.mp hnd).1
      intro he
      exact hv (he ▸ List.get_mem vs i hvs)
    have ih := rowEnv_lookup n mask vs (List.nodup_cons.mp hnd).2
      (start + 1) i hvs
    have hget : (v :: vs).get ⟨i + 1, hi⟩ = vs.get ⟨i, hvs⟩ := rfl
    rw [hget, rowEnv, List.lookup]
    have hbeq : (vs.get ⟨i, hvs⟩ == v) = false := beq_eq_false_iff_ne.mpr hvne
    rw [hbeq]
    rw [ih]
    have : start + 1 + i = start + (i + 1) := by omega
    rw [this]

theorem ttRows_ok (t : PyAst) (vars : List String) (n : Nat) :
    ∀ (masks : List Nat) (rows : List (List Nat × Nat)),
      ttRows t vars n masks = .ok rows →
      rows.length = masks.length ∧
      ∀ (j : Nat) (hj : j < masks.length) (hj2 : j < rows.length),
        ∃ b, eval_expr t (rowEnv n (masks.get ⟨j, hj⟩) 0 vars) = .ok b ∧
          rows.get ⟨j, hj2⟩ =
            (rowVals n (masks.get ⟨j, hj⟩), if b then 1 else 0)
  | [], rows, h => by
    rw [ttRows] at h
    cases h
    exact ⟨rfl, by intro j hj; simp at hj⟩
  | mask :: rest, rows, h => by
    rw [ttRows] at h
    cases he : eval_expr t (rowEnv n mask 0 vars) with
    | error e => rw [he] at h; cases h
    | ok b =>
      rw [he] at h
      cases hr : ttRows t vars n rest with
      | error e => rw [hr] at h; cases h
      | ok tail =>
        rw [hr] at h
        cases h
        obtain ⟨hlen, hrows⟩ := ttRows_ok t vars n rest tail hr
        refine ⟨by simpa using hlen, ?_⟩
        intro j hj hj2
        cases j with
        | zero => exact ⟨b, he, rfl⟩
        | succ j =>
          have hj' : j < rest.length := by simpa using Nat.lt_of_succ_lt_succ hj
          have hj2' : j < tail.length := by simpa using Nat.lt_of_succ_lt_succ hj2
          obtain ⟨b', hb', hrow⟩ := hrows j hj' hj2'
          exact ⟨b', hb', hrow⟩

/-- C6 (amended): whenever truth_table succeeds (evaluation of the
expression under the generated environments raises no error; validation
failures abort the whole call - see the counterexample), its output has
exactly the claimed shape: the variable list is the sorted, duplicate-free
list of exactly the variables appearing in the tree; there are 2 ^ n rows,
the row at index mask (masks in strictly increasing order 0 .. 2 ^ n - 1)
carries the bit vector whose i-th entry, counted from the most significant
end, is bit (n - i - 1) of the mask; the environment used for that row
binds the i-th variable (lexically smallest first) to that bit; the result
entry is the 0/1 value of the evaluation; and an expression with zero
variables yields exactly one row with the empty bit vector. -/
theorem claim_C6_amended (t : PyAst) (tpl : Option Env) (vars : List String)
    (rows : List (List Nat × Nat))
    (h : truth_table t tpl = .ok (vars, rows)) :
    vars = parse_vars t ∧
    vars.Pairwise (· < ·) ∧
    vars.Nodup ∧
    (∀ x, x ∈ vars ↔ PyAst.name x ∈ t.nodes) ∧
    rows.length = 2 ^ vars.length ∧
    (∀ (mask : Nat) (hm : mask < 2 ^ vars.length) (hm2 : mask < rows.length),
      ∃ b, eval_expr t (rowEnv vars.length mask 0 vars) = .ok b ∧
        rows.get ⟨mask, hm2⟩ =
          ((List.range vars.length).map (maskBit vars.length mask),
            if b then 1 else 0)) ∧
    (∀ (mask i : Nat) (hi : i < vars.length),
      (rowEnv vars.length mask 0 vars).lookup (vars.get ⟨i, hi⟩) =
        some (maskBit vars.length mask i == 1)) ∧
    (vars = [] → ∃ r, rows = [([], r)]) := by
  rw [truth_table] at h
  cases hr : ttRows t (parse_vars t) (parse_vars t).length
      (List.range (1 <<< (parse_vars t).length)) with
  | error e => rw [hr] at h; cases h
  | ok rows0 =>
    rw [hr] at h
    cases h
    obtain ⟨hlen, hrows⟩ := ttRows_ok t (parse_vars t) (parse_vars t).length _ _ hr
    have hpow : (1 <<< (parse_vars t).length) = 2 ^ (parse_vars t).length := by
      simp [Nat.shiftLeft_eq]
    have hlen2 : rows.length = 2 ^ (parse_vars t).length := by
      rw [hlen, List.length_range, hpow]
    refine ⟨rfl, parse_vars_sorted t, parse_vars_nodup t,
      fun x => by rw [mem_parse_vars, mem_collectVars], hlen2, ?_, ?_, ?_⟩
    · intro mask hm hm2
      have hmr : mask < (List.range (1 <<< (parse_vars t).length)).length := by
        rw [List.length_range, hpow]; exact hm
      obtain ⟨b, hb, hrow⟩ := hrows mask hmr hm2
      have hgm : (List.range (1 <<< (parse_vars t).length)).get ⟨mask, hmr⟩ = mask := by
        simp
      rw [hgm] at hb hrow
      exact ⟨b, hb, hrow⟩
    · intro mask i hi
      have := rowEnv_lookup (parse_vars t).length mask (parse_vars t)
        (parse_vars_nodup t) 0 i hi
      simpa using this
    · intro hnil
      have h1 : rows.length = 1 := by rw [hlen2, hnil]; rfl
      have hm0 : 0 < (List.range (1 <<< (parse_vars t).length)).length := by
        rw [List.length_range, hpow, hnil]; decide
      have hlen0 : (parse_vars t).length = 0 := by rw [hnil]; rfl
      have hvals : ∀ m, rowVals (parse_vars t).length m = [] := by
        intro m
        rw [rowVals, hlen0]
        rfl
      rcases rows with _ | ⟨a, rest⟩
      · simp at h1
      · rcases rest with _ | ⟨c, rest2⟩
        · obtain ⟨b, _, hrow⟩ := hrows 0 hm0 (by simp)
          exact ⟨if b then 1 else 0, by rw [show a = _ from hrow, hvals]⟩
        · simp at h1

theorem claim_C6_witness :
    truth_table (PyAst.constBool true) none = .ok ([], [([], 1)]) ∧
    ([([], 1)] : List (List Nat × Nat)).length =
      2 ^ ([] : List String).length :=
  ⟨by decide,
    (claim_C6_amended (.constBool true) none [] [([], 1)]
      (by decide)).2.2.2.2.1⟩

/-- C6 is false as stated for expressions that merely parse: the tree of
"A + B" is accepted by the parser and has two distinct variables, but
truth_table raises (propagating the eval_expr validation error on the very
first mask) instead of returning a variable list and rows. -/
theorem claim_C6_counterexample :
    truth_table astAplusB none = .error .unsupportedConstruct := by decide

/-- C10: parse_vars performs no forbidden-construct validation: on the
tree of "A + B" (a forbidden binary operation, which eval_expr rejects for
every environment) it succeeds and returns the sorted variable names. -/
theorem claim_C10 :
    parse_vars astAplusB = ["A", "B"] ∧
    ∀ env : Env, eval_expr astAplusB env = .error .unsupportedConstruct :=
  ⟨by decide, fun _ => rfl⟩

/-!
Embedding of recipe_system/sorting.py.

Items are of an arbitrary type T; the caller-supplied key function maps
each item into a linearly ordered key type K (the spec: keys are opaque,
totally ordered values).  The imperative loops of the Python code are
rendered as recursions on lists: an index-based adjacent compare-and-swap
pass left to right over a list prefix is exactly a left-to-right recursion
carrying the possibly swapped-forward element, and the for i in range(n)
outer loop with early exit is a fuel recursion, the inner bound n - i - 1
being fuel - 1.  Sorting never mutates its input in the embedding because
lists are values; the Python code copies the input with list(items) before
touching it, so the original sequence is likewise left unchanged there.
-/

namespace BubbleSort

/-- The should_swap condition of the inner loop of BubbleSort.sort:
key(arr[j]) < key(arr[j+1]) when reverse, key(arr[j]) > key(arr[j+1])
otherwise. -/
def shouldSwap {T K : Type} [LinearOrder K] (key : T → K) (reverse : Bool)
    (a b : T) : Bool :=
  if reverse then decide (key a < key b) else decide (key a > key b)

/-- One inner-loop pass, for j in range(0, bnd): adjacent
compare-and-swap from the left over the first bnd + 1 positions, threading
the swapped flag.  A swap puts arr[j+1] before arr[j] and the next
comparison looks at the element just swapped forward. -/
def pass {T K : Type} [LinearOrder K] (key : T → K) (reverse : Bool) :
    Nat → List T → List T × Bool
  | 0, arr => (arr, false)
  | _ + 1, [] => ([], false)
  | _ + 1, [x] => ([x], false)
  | bnd + 1, x :: y :: rest =>
    if shouldSwap key reverse x y then
      let r := pass key reverse bnd (x :: rest)
      (y :: r.1, true)
    else
      let r := pass key reverse bnd (y :: rest)
      (x :: r.1, r.2)

/-- The outer loop, for i in range(n), with the early exit when a pass
made no swap.  fuel counts the remaining iterations, so the inner bound
n - i - 1 of iteration i is fuel - 1. -/
def loop {T K : Type} [LinearOrder K] (key : T → K) (reverse : Bool) :
    Nat → List T → List T
  | 0, arr => arr
  | fuel + 1, arr =>
    let r := pass key reverse fuel arr
    if r.2 then loop key reverse fuel r.1 else r.1

/-- BubbleSort.sort (sorting.py): copy the input, return it unchanged for
fewer than two elements, otherwise run the swapping passes. -/
def sort {T K : Type} [LinearOrder K] (items : List T) (key : T → K)
    (reverse : Bool) : List T :=
  let arr := items
  let n := arr.length
  if n < 2 then arr else loop key reverse n arr

end BubbleSort

namespace MergeSort

/-- The is_less_or_equal condition of MergeSort._merge:
key(left[i]) >= key(right[j]) when reverse, key(left[i]) <= key(right[j])
otherwise. -/
def isLeCond {T K : Type} [LinearOrder K] (key : T → K) (reverse : Bool)
    (a b : T) : Bool :=
  if reverse then decide (key a ≥ key b) else decide (key a ≤ key b)

/-- MergeSort._merge (sorting.py): take from whichever list compares
first, preferring the left on ties, then append the remainders (left
remainder first - at that point one of the two is empty). -/
def merge {T K : Type} [LinearOrder K] (key : T → K) (reverse : Bool) :
    List T → List T → List T
  | [], right => right
  | x :: xs, [] => x :: xs
  | x :: xs, y :: ys =>
    if isLeCond key reverse x y then x :: merge key reverse xs (y :: ys)
    else y :: merge key reverse (x :: xs) ys
termination_by l r => l.length + r.length

/-- MergeSort.sort (sorting.py): lists of fewer than two elements are
returned as copied; otherwise split at mid = len // 2, sort both halves
recursively with the same key and reverse, and merge. -/
def sort {T K : Type} [LinearOrder K] (key : T → K) (reverse : Bool)
    (items : List T) : List T :=
  if h : items.length < 2 then items
  else
    let mid := items.length / 2
    merge key reverse (sort key reverse (items.take mid))
      (sort key reverse (items.drop mid))
termination_by items.length
decreasing_by
  · simp only [List.length_take]
    omega
  · simp only [List.length_drop]
    omega

end MergeSort

/-!
Generic development: both algorithms branch on a single boolean
comparison derived from the key and the direction.  cmpLe key reverse a b
means a may come no later than b; bubble sort swaps exactly when it is
false of an adjacent pair, merge takes the left head exactly when it is
true.  All structural lemmas are proved over an abstract total, transitive
boolean relation and transported to the two source functions.
-/

/-- The effective comparison of both strategies: under reverse the
direction of the key comparison is flipped (the list is never reversed). -/
def cmpLe {T K : Type} [LinearOrder K] (key : T → K) (reverse : Bool)
    (a b : T) : Bool :=
  if reverse then decide (key b ≤ key a) else decide (key a ≤ key b)

/-- Sortedness with respect to a boolean comparison. -/
abbrev SortedLe {T : Type} (le : T → T → Bool) (l : List T) : Prop :=
  l.Pairwise (fun a b => le a b = true)

theorem cmpLe_total {T K : Type} [LinearOrder K] (key : T → K)
    (reverse : Bool) (a b : T) :
    cmpLe key reverse a b = true ∨ cmpLe key reverse b a = true := by
  cases reverse <;> simp [cmpLe] <;> exact le_total _ _

theorem cmpLe_trans {T K : Type} [LinearOrder K] (key : T → K)
    (reverse : Bool) (a b c : T) (h1 : cmpLe key reverse a b = true)
    (h2 : cmpLe key reverse b c = true) : cmpLe key reverse a c = true := by
  cases reverse <;> simp_all [cmpLe]
  · exact le_trans h1 h2
  · exact le_trans h2 h1

theorem decide_lt_eq_not_decide_le {K : Type} [LinearOrder K] (a b : K) :
    decide (a < b) = !decide (b ≤ a) := by
  by_cases h : b ≤ a
  · simp [h, not_lt.mpr h]
  · simp [h, lt_iff_not_le.mpr h]

theorem shouldSwap_eq_not_cmpLe {T K : Type} [LinearOrder K] (key : T → K)
    (reverse : Bool) (a b : T) :
    BubbleSort.shouldSwap key reverse a b = !(cmpLe key reverse a b) := by
  cases reverse
  · show decide (key a > key b) = !decide (key a ≤ key b)
    exact decide_lt_eq_not_decide_le (key b) (key a)
  · show decide (key a < key b) = !decide (key b ≤ key a)
    exact decide_lt_eq_not_decide_le (key a) (key b)

theorem isLeCond_eq_cmpLe {T K : Type} [LinearOrder K] (key : T → K)
    (reverse : Bool) (a b : T) :
    MergeSort.isLeCond key reverse a b = cmpLe key reverse a b := by
  cases reverse <;> simp [MergeSort.isLeCond, cmpLe, ge_iff_le]

/-- Bubble pass over an abstract comparison: swap exactly when le fails
of the adjacent pair. -/
def gpass {T : Type} (le : T → T → Bool) : Nat → List T → List T × Bool
  | 0, arr => (arr, false)
  | _ + 1, [] => ([], false)
  | _ + 1, [x] => ([x], false)
  | bnd + 1, x :: y :: rest =>
    if le x y then
      let r := gpass le bnd (y :: rest)
      (x :: r.1, r.2)
    else
      let r := gpass le bnd (x :: rest)
      (y :: r.1, true)

/-- Bubble outer loop over an abstract comparison. -/
def gloop {T : Type} (le : T → T → Bool) : Nat → List T → List T
  | 0, arr => arr
  | fuel + 1, arr =>
    let r := gpass le fuel arr
    if r.2 then gloop le fuel r.1 else r.1

/-- Bubble sort over an abstract comparison. -/
def gbubble {T : Type} (le : T → T → Bool) (l : List T) : List T :=
  if l.length < 2 then l else gloop le l.length l

/-- Merge over an abstract comparison, preferring the left on ties. -/
def gmerge {T : Type} (le : T → T → Bool) : List T → List T → List T
  | [], right => right
  | x :: xs, [] => x :: xs
  | x :: xs, y :: ys =>
    if le x y then x :: gmerge le xs (y :: ys)
    else y :: gmerge le (x :: xs) ys
termination_by l r => l.length + r.length

/-- Merge sort over an abstract comparison, splitting at length / 2. -/
def gmsort {T : Type} (le : T → T → Bool) (l : List T) : List T :=
  if h : l.length < 2 then l
  else
    gmerge le (gmsort le (l.take (l.length / 2)))
      (gmsort le (l.drop (l.length / 2)))
termination_by l.length
decreasing_by
  · simp only [List.length_take]
    omega
  · simp only [List.length_drop]
    omega

theorem pass_eq_gpass {T K : Type} [LinearOrder K] (key : T → K)
    (reverse : Bool) : ∀ (bnd : Nat) (l : List T),
    BubbleSort.pass key reverse bnd l = gpass (cmpLe key reverse) bnd l
  | 0, _ => rfl
  | _ + 1, [] => rfl
  | _ + 1, [_] => rfl
  | bnd + 1, x :: y :: rest => by
    have ih1 := pass_eq_gpass key reverse bnd (x :: rest)
    have ih2 := pass_eq_gpass key reverse bnd (y :: rest)
    simp only [BubbleSort.pass, gpass, shouldSwap_eq_not_cmpLe]
    cases h : cmpLe key reverse x y <;> simp [h, ih1, ih2]

theorem loop_eq_gloop {T K : Type} [LinearOrder K] (key : T → K)
    (reverse : Bool) : ∀ (fuel : Nat) (l : List T),
    BubbleSort.loop key reverse fuel l = gloop (cmpLe key reverse) fuel l
  | 0, _ => rfl
  | fuel + 1, arr => by
    have ih := loop_eq_gloop key reverse fuel
    simp only [BubbleSort.loop, gloop, pass_eq_gpass]
    cases h : (gpass (cmpLe key reverse) fuel arr).2 <;> simp [h, ih]

theorem sort_eq_gbubble {T K : Type} [LinearOrder K] (items : List T)
    (key : T → K) (reverse : Bool) :
    BubbleSort.sort items key reverse = gbubble (cmpLe key reverse) items := by
  simp only [BubbleSort.sort, gbubble, loop_eq_gloop]

theorem merge_eq_gmerge {T K : Type} [LinearOrder K] (key : T → K)
    (reverse : Bool) : ∀ (l r : List T),
    MergeSort.merge key reverse l r = gmerge (cmpLe key reverse) l r
  | [], right => by simp [MergeSort.merge, gmerge]
  | x :: xs, [] => by simp [MergeSort.merge, gmerge]
  | x :: xs, y :: ys => by
    have ih1 := merge_eq_gmerge key reverse xs (y :: ys)
    have ih2 := merge_eq_gmerge key reverse (x :: xs) ys
    simp only [MergeSort.merge, gmerge, isLeCond_eq_cmpLe]
    cases h : cmpLe key reverse x y <;> simp [h, ih1, ih2]
termination_by l r => l.length + r.length

theorem sort_eq_gmsort {T K : Type} [LinearOrder K] (key : T → K)
    (reverse : Bool) (items : List T) :
    MergeSort.sort key reverse items = gmsort (cmpLe key reverse) items := by
  suffices hs : ∀ (n : Nat) (l : List T), l.length ≤ n →
      MergeSort.sort key reverse l = gmsort (cmpLe key reverse) l from
    hs items.length items le_rfl
  intro n
  induction n with
  | zero =>
    intro l hl
    have h0 : l.length = 0 := Nat.le_antisymm hl (Nat.zero_le _)
    rw [List.length_eq_zero] at h0
    subst h0
    rw [MergeSort.sort, gmsort]
    simp
  | succ n ih =>
    intro l hl
    by_cases h : l.length < 2
    · rw [MergeSort.sort, gmsort]
      simp [h]
    · have hdiv : l.length / 2 < l.length := Nat.div_lt_self (by omega) (by omega)
      have hdiv1 : 1 ≤ l.length / 2 := by
        rw [Nat.one_le_div_iff (by omega)]
        omega
      have ih1 := ih (l.take (l.length / 2))
        (by rw [List.length_take]; omega)
      have ih2 := ih (l.drop (l.length / 2))
        (by rw [List.length_drop]; omega)
      rw [MergeSort.sort, gmsort]
      simp only [dif_neg h]
      rw [merge_eq_gmerge, ih1, ih2]

/-! Properties of the generic bubble pass. -/

theorem gpass_perm {T : Type} (le : T → T → Bool) :
    ∀ (bnd : Nat) (l : List T), (gpass le bnd l).1.Perm l
  | 0, l => List.Perm.refl l
  | _ + 1, [] => List.Perm.refl []
  | _ + 1, [x] => List.Perm.refl [x]
  | bnd + 1, x :: y :: rest => by
    have ih1 := gpass_perm le bnd (y :: rest)
    have ih2 := gpass_perm le bnd (x :: rest)
    rw [gpass]
    cases h : le x y
    · simp only [Bool.false_eq_true, if_false]
      exact (ih2.cons y).trans (List.Perm.swap x y rest)
    · simp only [if_true]
      exact ih1.cons x

theorem gpass_length {T : Type} (le : T → T → Bool) (bnd : Nat)
    (l : List T) : (gpass le bnd l).1.length = l.length :=
  (gpass_perm le bnd l).length_eq

theorem gpass_filter {T : Type} (le : T → T → Bool) (p : T → Bool)
    (hp : ∀ a b, p a = true → p b = true → le a b = true) :
    ∀ (bnd : Nat) (l : List T), (gpass le bnd l).1.filter p = l.filter p
  | 0, _ => rfl
  | _ + 1, [] => rfl
  | _ + 1, [_] => rfl
  | bnd + 1, x :: y :: rest => by
    have ih1 := gpass_filter le p hp bnd (y :: rest)
    have ih2 := gpass_filter le p hp bnd (x :: rest)
    rw [gpass]
    cases h : le x y
    · simp only [Bool.false_eq_true, if_false]
      by_cases hx : p x = true
      · have hy : p y = false := by
          cases hyv : p y
          · rfl
          · have hxy := hp x y hx hyv
            rw [h] at hxy
            cases hxy
        simp [List.filter_cons, hx, hy, ih2]
      · have hx' : p x = false := by
          cases hxv : p x
          · rfl
          · exact absurd hxv hx
        cases hy : p y <;> simp [List.filter_cons, hx', hy, ih2]
    · simp only [if_true]
      simp [List.filter_cons, ih1]

theorem gpass_noswap {T : Type} (le : T → T → Bool) :
    ∀ (bnd : Nat) (l : List T), (gpass le bnd l).2 = false →
      (gpass le bnd l).1 = l ∧
        List.Chain' (fun a b => le a b = true) (l.take (bnd + 1))
  | 0, l, _ => ⟨rfl, by cases l <;> simp⟩
  | _ + 1, [], _ => ⟨rfl, by simp⟩
  | _ + 1, [x], _ => ⟨rfl, by simp⟩
  | bnd + 1, x :: y :: rest, hsw => by
    cases h : le x y
    · exfalso
      rw [gpass] at hsw
      simp [h] at hsw
    · have hsw' : (gpass le bnd (y :: rest)).2 = false := by
        rw [gpass] at hsw
        simpa [h] using hsw
      obtain ⟨heq, hch⟩ := gpass_noswap le bnd (y :: rest) hsw'
      constructor
      · rw [gpass]
        simp [h, heq]
      · rw [List.take_succ_cons, List.take_succ_cons]
        rw [List.take_succ_cons] at hch
        exact List.chain'_cons.mpr ⟨h, hch⟩

theorem gpass_split {T : Type} (le : T → T → Bool) :
    ∀ (bnd : Nat) (l : List T),
      gpass le bnd l =
        ((gpass le bnd (l.take (bnd + 1))).1 ++ l.drop (bnd + 1),
          (gpass le bnd (l.take (bnd + 1))).2)
  | 0, l => by cases l <;> simp [gpass]
  | _ + 1, [] => by simp [gpass]
  | _ + 1, [x] => by simp [gpass]
  | bnd + 1, x :: y :: rest => by
    have ih1 := gpass_split le bnd (y :: rest)
    have ih2 := gpass_split le bnd (x :: rest)
    rw [List.take_succ_cons, List.take_succ_cons, List.drop_succ_cons,
      List.drop_succ_cons]
    rw [gpass, gpass]
    cases h : le x y
    · simp only [Bool.false_eq_true, if_false]
      rw [ih2]
      rw [List.take_succ_cons, List.drop_succ_cons] at ih2 ⊢
      simp [ih2]
    · simp only [if_true]
      rw [ih1]
      rw [List.take_succ_cons, List.drop_succ_cons] at ih1 ⊢
      simp [ih1]

theorem gpass_max {T : Type} (le : T → T → Bool)
    (htot : ∀ a b, le a b = true ∨ le b a = true)
    (htrans : ∀ a b c, le a b = true → le b c = true → le a c = true) :
    ∀ (bnd : Nat) (l : List T), l.length = bnd + 1 →
      ∃ init m, (gpass le bnd l).1 = init ++ [m] ∧
        ∀ z ∈ init, le z m = true
  | 0, [], hlen => by simp at hlen
  | 0, [x], _ => ⟨[], x, rfl, by simp⟩
  | 0, _ :: _ :: _, hlen => by simp at hlen
  | _ + 1, [], hlen => by simp at hlen
  | bnd + 1, [_], hlen => by simp at hlen
  | bnd + 1, x :: y :: rest, hlen => by
    have hlen' : (x :: rest).length = bnd + 1 := by
      simp at hlen ⊢
      omega
    have hlen'' : (y :: rest).length = bnd + 1 := by
      simp at hlen ⊢
      omega
    cases h : le x y
    · have hyx : le y x = true := by
        rcases htot x y with hxy | hyx
        · rw [h] at hxy
          cases hxy
        · exact hyx
      obtain ⟨init, m, heq, hmax⟩ := gpass_max le htot htrans bnd (x :: rest) hlen'
      have hxm : le x m = true := by
        have hperm := gpass_perm le bnd (x :: rest)
        have hx : x ∈ init ++ [m] := by
          rw [← heq]
          exact hperm.mem_iff.mpr (List.mem_cons_self _ _)
        rcases List.mem_append.mp hx with hx | hx
        · exact hmax x hx
        · have hxm' : x = m := by simpa using hx
          subst hxm'
          exact (htot x x).elim id id
      have hym : le y m = true := htrans y x m hyx hxm
      refine ⟨y :: init, m, ?_, ?_⟩
      · rw [gpass]
        simp [h, heq]
      · intro z hz
        rcases List.mem_cons.mp hz with rfl | hz
        · exact hym
        · exact hmax z hz
    · obtain ⟨init, m, heq, hmax⟩ := gpass_max le htot htrans bnd (y :: rest) hlen''
      have hym : le y m = true := by
        have hperm := gpass_perm le bnd (y :: rest)
        have hy : y ∈ init ++ [m] := by
          rw [← heq]
          exact hperm.mem_iff.mpr (List.mem_cons_self _ _)
        rcases List.mem_append.mp hy with hy | hy
        · exact hmax y hy
        · have hym' : y = m := by simpa using hy
          subst hym'
          exact (htot y y).elim id id
      have hxm : le x m = true := htrans x y m h hym
      refine ⟨x :: init, m, ?_, ?_⟩
      · rw [gpass]
        simp [h, heq]
      · intro z hz
        rcases List.mem_cons.mp hz with rfl | hz
        · exact hxm
        · exact hmax z hz

/-! Properties of the generic bubble loop and bubble sort. -/

theorem chain'_pairwise {T : Type} (le : T → T → Bool)
    (htrans : ∀ a b c, le a b = true → le b c = true → le a c = true)
    (l : List T) (h : List.Chain' (fun a b => le a b = true) l) :
    l.Pairwise (fun a b => le a b = true) := by
  haveI : IsTrans T (fun a b => le a b = true) := ⟨fun a b c => htrans a b c⟩
  exact List.chain'_iff_pairwise.mp h

theorem gloop_perm {T : Type} (le : T → T → Bool) :
    ∀ (fuel : Nat) (l : List T), (gloop le fuel l).Perm l
  | 0, l => List.Perm.refl l
  | fuel + 1, l => by
    have hp := gpass_perm le fuel l
    rw [gloop]
    cases h : (gpass le fuel l).2
    · simpa [h] using hp
    · simp only [h, if_true]
      exact (gloop_perm le fuel _).trans hp

theorem gloop_filter {T : Type} (le : T → T → Bool) (p : T → Bool)
    (hp : ∀ a b, p a = true → p b = true → le a b = true) :
    ∀ (fuel : Nat) (l : List T), (gloop le fuel l).filter p = l.filter p
  | 0, _ => rfl
  | fuel + 1, l => by
    have hf := gpass_filter le p hp fuel l
    rw [gloop]
    cases h : (gpass le fuel l).2
    · simpa [h] using hf
    · simp only [h, if_true]
      rw [gloop_filter le p hp fuel _, hf]

theorem gloop_sorted {T : Type} (le : T → T → Bool)
    (htot : ∀ a b, le a b = true ∨ le b a = true)
    (htrans : ∀ a b c, le a b = true → le b c = true → le a c = true) :
    ∀ (fuel : Nat) (l : List T), fuel ≤ l.length →
      SortedLe le (l.drop fuel) →
      (∀ x ∈ l.take fuel, ∀ y ∈ l.drop fuel, le x y = true) →
      SortedLe le (gloop le fuel l)
  | 0, l, _, hs, _ => by simpa using hs
  | fuel + 1, l, hlen, hs, hdom => by
    rw [gloop]
    have hlt : (l.take (fuel + 1)).length = fuel + 1 :=
      List.length_take_of_le hlen
    cases h : (gpass le fuel l).2
    · simp only [h, Bool.false_eq_true, if_false]
      obtain ⟨heq, hch⟩ := gpass_noswap le fuel l h
      rw [heq]
      have hp1 := chain'_pairwise le htrans _ hch
      have hsplit := (List.take_append_drop (fuel + 1) l).symm
      rw [hsplit]
      exact List.pairwise_append.mpr ⟨hp1, hs, hdom⟩
    · simp only [h, if_true]
      obtain ⟨init, m, heqP, hmax⟩ :=
        gpass_max le htot htrans fuel (l.take (fuel + 1)) hlt
      have hsplit := gpass_split le fuel l
      have harr1 : (gpass le fuel l).1 =
          (gpass le fuel (l.take (fuel + 1))).1 ++ l.drop (fuel + 1) := by
        rw [hsplit]
      have harr2 : (gpass le fuel l).1 =
          init ++ ([m] ++ l.drop (fuel + 1)) := by
        rw [harr1, heqP, List.append_assoc]
      have hlinit : init.length = fuel := by
        have h1 : (init ++ [m]).length = fuel + 1 := by
          rw [← heqP, gpass_length, hlt]
        simp at h1
        omega
      have hdropA : (gpass le fuel l).1.drop fuel = m :: l.drop (fuel + 1) := by
        rw [harr2, ← hlinit, List.drop_left]
        rfl
      have htakeA : (gpass le fuel l).1.take fuel = init := by
        rw [harr2, ← hlinit, List.take_left]
      have hmmem : m ∈ l.take (fuel + 1) :=
        ((gpass_perm le fuel (l.take (fuel + 1))).mem_iff).mp
          (by rw [heqP]; simp)
      have hinitmem : ∀ z ∈ init, z ∈ l.take (fuel + 1) := by
        intro z hz
        exact ((gpass_perm le fuel (l.take (fuel + 1))).mem_iff).mp
          (by rw [heqP]; simp [hz])
      apply gloop_sorted le htot htrans fuel ((gpass le fuel l).1)
      · rw [gpass_length]
        omega
      · rw [hdropA]
        exact List.pairwise_cons.mpr ⟨fun y hy => hdom m hmmem y hy, hs⟩
      · intro x hx y hy
        rw [htakeA] at hx
        rw [hdropA] at hy
        rcases List.mem_cons.mp hy with rfl | hy
        · exact hmax x hx
        · exact hdom x (hinitmem x hx) y hy

theorem gbubble_perm {T : Type} (le : T → T → Bool) (l : List T) :
    (gbubble le l).Perm l := by
  rw [gbubble]
  by_cases h : l.length < 2
  · simp [h]
  · simp only [h, if_false]
    exact gloop_perm le l.length l

theorem gbubble_filter {T : Type} (le : T → T → Bool) (p : T → Bool)
    (hp : ∀ a b, p a = true → p b = true → le a b = true) (l : List T) :
    (gbubble le l).filter p = l.filter p := by
  rw [gbubble]
  by_cases h : l.length < 2
  · simp [h]
  · simp only [h, if_false]
    exact gloop_filter le p hp l.length l

theorem gbubble_sorted {T : Type} (le : T → T → Bool)
    (htot : ∀ a b, le a b = true ∨ le b a = true)
    (htrans : ∀ a b c, le a b = true → le b c = true → le a c = true)
    (l : List T) : SortedLe le (gbubble le l) := by
  rw [gbubble]
  by_cases h : l.length < 2
  · simp only [h, if_true]
    rcases l with _ | ⟨a, _ | ⟨b, t⟩⟩
    · simp
    · simp
    · simp only [List.length_cons] at h
      omega
  · simp only [h, if_false]
    apply gloop_sorted le htot htrans l.length l le_rfl
    · simp
    · simp

/-! Properties of the generic merge and merge sort. -/

theorem gmerge_perm {T : Type} (le : T → T → Bool) :
    ∀ (l r : List T), (gmerge le l r).Perm (l ++ r)
  | [], r => by simp [gmerge]
  | x :: xs, [] => by simp [gmerge]
  | x :: xs, y :: ys => by
    have ih1 := gmerge_perm le xs (y :: ys)
    have ih2 := gmerge_perm le (x :: xs) ys
    rw [gmerge]
    cases h : le x y
    · simp only [Bool.false_eq_true, if_false]
      exact (ih2.cons y).trans List.perm_middle.symm
    · simp only [if_true]
      exact ih1.cons x
termination_by l r => l.length + r.length

theorem gmerge_sorted {T : Type} (le : T → T → Bool)
    (htot : ∀ a b, le a b = true ∨ le b a = true)
    (htrans : ∀ a b c, le a b = true → le b c = true → le a c = true) :
    ∀ (l r : List T), SortedLe le l → SortedLe le r →
      SortedLe le (gmerge le l r)
  | [], r, _, hr => by simpa [gmerge] using hr
  | x :: xs, [], hl, _ => by simpa [gmerge] using hl
  | x :: xs, y :: ys, hl, hr => by
    obtain ⟨hx, hxs⟩ := List.pairwise_cons.mp hl
    obtain ⟨hy, hys⟩ := List.pairwise_cons.mp hr
    rw [gmerge]
    cases h : le x y
    · simp only [Bool.false_eq_true, if_false]
      have hyx : le y x = true := by
        rcases htot x y with hxy | hyx
        · rw [h] at hxy
          cases hxy
        · exact hyx
      refine List.pairwise_cons.mpr
        ⟨?_, gmerge_sorted le htot htrans (x :: xs) ys hl hys⟩
      intro z hz
      have hz' : z ∈ (x :: xs) ++ ys :=
        (gmerge_perm le (x :: xs) ys).mem_iff.mp hz
      rcases List.mem_append.mp hz' with hz' | hz'
      · rcases List.mem_cons.mp hz' with rfl | hz'
        · exact hyx
        · exact htrans y x z hyx (hx z hz')
      · exact hy z hz'
    · simp only [if_true]
      refine List.pairwise_cons.mpr
        ⟨?_, gmerge_sorted le htot htrans xs (y :: ys) hxs hr⟩
      intro z hz
      have hz' : z ∈ xs ++ (y :: ys) :=
        (gmerge_perm le xs (y :: ys)).mem_iff.mp hz
      rcases List.mem_append.mp hz' with hz' | hz'
      · exact hx z hz'
      · rcases List.mem_cons.mp hz' with rfl | hz'
        · exact h
        · exact htrans x y z h (hy z hz')
termination_by l r => l.length + r.length

theorem gmerge_filter {T : Type} (le : T → T → Bool)
    (htot : ∀ a b, le a b = true ∨ le b a = true)
    (htrans : ∀ a b c, le a b = true → le b c = true → le a c = true)
    (p : T → Bool)
    (hp : ∀ a b, p a = true → p b = true → le a b = true) :
    ∀ (l r : List T), SortedLe le l →
      (gmerge le l r).filter p = l.filter p ++ r.filter p
  | [], r, _ => by simp [gmerge]
  | x :: xs, [], _ => by simp [gmerge]
  | x :: xs, y :: ys, hl => by
    obtain ⟨hx, hxs⟩ := List.pairwise_cons.mp hl
    rw [gmerge]
    cases h : le x y
    · simp only [Bool.false_eq_true, if_false]
      have ih := gmerge_filter le htot htrans p hp (x :: xs) ys hl
      cases hpy : p y
      · simp [List.filter_cons, hpy, ih]
      · have hnil : (x :: xs).filter p = [] := by
          rw [List.filter_eq_nil_iff]
          intro z hz hpz
          have hzy : le z y = true := hp z y hpz hpy
          have hxz : le x z = true := by
            rcases List.mem_cons.mp hz with rfl | hz'
            · exact (htot z z).elim id id
            · exact hx z hz'
          have hxy := htrans x z y hxz hzy
          rw [h] at hxy
          cases hxy
        simp [List.filter_cons, hpy, ih, hnil]
    · simp only [if_true]
      have ih := gmerge_filter le htot htrans p hp xs (y :: ys) hxs
      cases hpx : p x <;> simp [List.filter_cons, hpx, ih]
termination_by l r => l.length + r.length

theorem gmsort_perm {T : Type} (le : T → T → Bool) (l : List T) :
    (gmsort le l).Perm l := by
  suffices hs : ∀ (n : Nat) (l : List T), l.length ≤ n →
      (gmsort le l).Perm l from hs l.length l le_rfl
  intro n
  induction n with
  | zero =>
    intro l hl
    have h0 : l.length = 0 := Nat.le_antisymm hl (Nat.zero_le _)
    rw [gmsort]
    simp [h0]
  | succ n ih =>
    intro l hl
    rw [gmsort]
    by_cases h : l.length < 2
    · simp [h]
    · simp only [dif_neg h]
      have hb1 : (l.take (l.length / 2)).length ≤ n := by
        rw [List.length_take]
        have : l.length / 2 < l.length := Nat.div_lt_self (by omega) (by omega)
        omega
      have hb2 : (l.drop (l.length / 2)).length ≤ n := by
        rw [List.length_drop]
        have : 1 ≤ l.length / 2 := by
          rw [Nat.one_le_div_iff (by omega)]
          omega
        omega
      have h1 := ih (l.take (l.length / 2)) hb1
      have h2 := ih (l.drop (l.length / 2)) hb2
      refine ((gmerge_perm le _ _).trans (h1.append h2)).trans ?_
      rw [List.take_append_drop]

theorem gmsort_sorted {T : Type} (le : T → T → Bool)
    (htot : ∀ a b, le a b = true ∨ le b a = true)
    (htrans : ∀ a b c, le a b = true → le b c = true → le a c = true)
    (l : List T) : SortedLe le (gmsort le l) := by
  suffices hs : ∀ (n : Nat) (l : List T), l.length ≤ n →
      SortedLe le (gmsort le l) from hs l.length l le_rfl
  intro n
  induction n with
  | zero =>
    intro l hl
    have h0 : l.length = 0 := Nat.le_antisymm hl (Nat.zero_le _)
    rw [List.length_eq_zero] at h0
    subst h0
    rw [gmsort]
    simp
  | succ n ih =>
    intro l hl
    rw [gmsort]
    by_cases h : l.length < 2
    · simp only [dif_pos h]
      rcases l with _ | ⟨a, _ | ⟨b, t⟩⟩
      · simp
      · simp
      · simp only [List.length_cons] at h
        omega
    · simp only [dif_neg h]
      have hb1 : (l.take (l.length / 2)).length ≤ n := by
        rw [List.length_take]
        have : l.length / 2 < l.length := Nat.div_lt_self (by omega) (by omega)
        omega
      have hb2 : (l.drop (l.length / 2)).length ≤ n := by
        rw [List.length_drop]
        have : 1 ≤ l.length / 2 := by
          rw [Nat.one_le_div_iff (by omega)]
          omega
        omega
      exact gmerge_sorted le htot htrans _ _ (ih _ hb1) (ih _ hb2)

theorem gmsort_filter {T : Type} (le : T → T → Bool)
    (htot : ∀ a b, le a b = true ∨ le b a = true)
    (htrans : ∀ a b c, le a b = true → le b c = true → le a c = true)
    (p : T → Bool)
    (hp : ∀ a b, p a = true → p b = true → le a b = true) (l : List T) :
    (gmsort le l).filter p = l.filter p := by
  suffices hs : ∀ (n : Nat) (l : List T), l.length ≤ n →
      (gmsort le l).filter p = l.filter p from hs l.length l le_rfl
  intro n
  induction n with
  | zero =>
    intro l hl
    have h0 : l.length = 0 := Nat.le_antisymm hl (Nat.zero_le _)
    rw [List.length_eq_zero] at h0
    subst h0
    rw [gmsort]
    simp
  | succ n ih =>
    intro l hl
    rw [gmsort]
    by_cases h : l.length < 2
    · simp [h]
    · simp only [dif_neg h]
      have hb1 : (l.take (l.length / 2)).length ≤ n := by
        rw [List.length_take]
        have : l.length / 2 < l.length := Nat.div_lt_self (by omega) (by omega)
        omega
      have hb2 : (l.drop (l.length / 2)).length ≤ n := by
        rw [List.length_drop]
        have : 1 ≤ l.length / 2 := by
          rw [Nat.one_le_div_iff (by omega)]
          omega
        omega
      rw [gmerge_filter le htot htrans p hp _ _
        (gmsort_sorted le htot htrans _)]
      rw [ih _ hb1, ih _ hb2, ← List.filter_append, List.take_append_drop]

/-!
Uniqueness of the stable sorted arrangement: two lists that are both
sorted under a total transitive comparison and whose restriction to every
comparison-equivalence class is the same list are equal.  Both algorithms
preserve those restrictions (their swaps and merges never reorder within
a class), which yields their extensional equality.
-/

theorem exists_of_filter_ne_nil {T : Type} (p : T → Bool) (l : List T)
    (h : l.filter p ≠ []) : ∃ z ∈ l, p z = true := by
  by_contra hc
  push_neg at hc
  exact h (List.filter_eq_nil_iff.mpr hc)

theorem sorted_filter_unique {T : Type} (le : T → T → Bool)
    (htot : ∀ a b, le a b = true ∨ le b a = true)
    (htrans : ∀ a b c, le a b = true → le b c = true → le a c = true) :
    ∀ (out1 out2 : List T), SortedLe le out1 → SortedLe le out2 →
      (∀ a, out1.filter (fun b => le a b && le b a) =
        out2.filter (fun b => le a b && le b a)) →
      out1 = out2
  | [], [], _, _, _ => rfl
  | [], y :: t2, _, _, hf => by
    exfalso
    have hyy : le y y = true := (htot y y).elim id id
    have := hf y
    simp [List.filter_cons, hyy] at this
  | x :: t1, [], _, _, hf => by
    exfalso
    have hxx : le x x = true := (htot x x).elim id id
    have := hf x
    simp [List.filter_cons, hxx] at this
  | x :: t1, y :: t2, hs1, hs2, hf => by
    obtain ⟨hx1, ht1⟩ := List.pairwise_cons.mp hs1
    obtain ⟨hy2, ht2⟩ := List.pairwise_cons.mp hs2
    have hxx : le x x = true := (htot x x).elim id id
    have hyy : le y y = true := (htot y y).elim id id
    have hyx : le y x = true := by
      have hfx := hf x
      have h1 : (x :: t1).filter (fun b => le x b && le b x) =
          x :: t1.filter (fun b => le x b && le b x) := by
        simp [List.filter_cons, hxx]
      have hne : (y :: t2).filter (fun b => le x b && le b x) ≠ [] := by
        rw [← hfx, h1]
        simp
      obtain ⟨z, hz, hpz⟩ := exists_of_filter_ne_nil _ _ hne
      have hzx : le z x = true := by
        simp only [Bool.and_eq_true] at hpz
        exact hpz.2
      rcases List.mem_cons.mp hz with rfl | hz'
      · exact hzx
      · exact htrans y z x (hy2 z hz') hzx
    have hxy : le x y = true := by
      have hfy := hf y
      have h1 : (y :: t2).filter (fun b => le y b && le b y) =
          y :: t2.filter (fun b => le y b && le b y) := by
        simp [List.filter_cons, hyy]
      have hne : (x :: t1).filter (fun b => le y b && le b y) ≠ [] := by
        rw [hfy, h1]
        simp
      obtain ⟨w, hw, hpw⟩ := exists_of_filter_ne_nil _ _ hne
      have hwy : le w y = true := by
        simp only [Bool.and_eq_true] at hpw
        exact hpw.2
      rcases List.mem_cons.mp hw with rfl | hw'
      · exact hwy
      · exact htrans x w y (hx1 w hw') hwy
    have hxeqy : x = y := by
      have hfx := hf x
      rw [List.filter_cons, List.filter_cons] at hfx
      simp only [hxx, hxy, hyx, Bool.and_self, Bool.and_eq_true,
        if_true] at hfx
      exact (List.cons.injEq _ _ _ _ ▸ hfx).1
    subst hxeqy
    have hftails : ∀ a, t1.filter (fun b => le a b && le b a) =
        t2.filter (fun b => le a b && le b a) := by
      intro a
      have hfa := hf a
      rw [List.filter_cons, List.filter_cons] at hfa
      cases ha : (le a x && le x a)
      · simpa [ha] using hfa
      · simpa [ha] using hfa
    exact congrArg (x :: ·)
      (sorted_filter_unique le htot htrans t1 t2 ht1 ht2 hftails)

theorem gbubble_eq_gmsort {T : Type} (le : T → T → Bool)
    (htot : ∀ a b, le a b = true ∨ le b a = true)
    (htrans : ∀ a b c, le a b = true → le b c = true → le a c = true)
    (l : List T) : gbubble le l = gmsort le l := by
  apply sorted_filter_unique le htot htrans
  · exact gbubble_sorted le htot htrans l
  · exact gmsort_sorted le htot htrans l
  · intro a
    have hp : ∀ b c : T, (le a b && le b a) = true →
        (le a c && le c a) = true → le b c = true := by
      intro b c hb hc
      simp only [Bool.and_eq_true] at hb hc
      exact htrans b a c hb.2 hc.1
    rw [gbubble_filter le _ hp l, gmsort_filter le htot htrans _ hp l]

/-! The sorting claims. -/

/-- C3: for every input list, key function and direction flag, the two
strategies return exactly the same list: each computes the unique stable
arrangement sorted under the comparison cmpLe key reverse. -/
theorem claim_C3 {T K : Type} [LinearOrder K] (items : List T)
    (key : T → K) (reverse : Bool) :
    BubbleSort.sort items key reverse = MergeSort.sort key reverse items := by
  rw [sort_eq_gbubble, sort_eq_gmsort]
  exact gbubble_eq_gmsort _ (cmpLe_total key reverse)
    (cmpLe_trans key reverse) items

/-- C4: both strategies are stable for every input, key function and
direction: restricting the output to the elements of any one key value
yields exactly the input restricted to that key value, i.e. equal-key
elements appear in their input order; the reverse flag flips the
comparison, never the list, so this holds for descending sorts too. -/
theorem claim_C4 {T K : Type} [LinearOrder K] (items : List T)
    (key : T → K) (reverse : Bool) (k : K) :
    (BubbleSort.sort items key reverse).filter
        (fun b => decide (key b = k)) =
      items.filter (fun b => decide (key b = k)) ∧
    (MergeSort.sort key reverse items).filter
        (fun b => decide (key b = k)) =
      items.filter (fun b => decide (key b = k)) := by
  have hp : ∀ a b : T, decide (key a = k) = true →
      decide (key b = k) = true → cmpLe key reverse a b = true := by
    intro a b ha hb
    rw [decide_eq_true_iff] at ha hb
    cases reverse <;> simp [cmpLe, ha, hb]
  constructor
  · rw [sort_eq_gbubble]
    exact gbubble_filter _ _ hp items
  · rw [sort_eq_gmsort]
    exact gmsort_filter _ (cmpLe_total key reverse)
      (cmpLe_trans key reverse) _ hp items

/-- C5: both strategies return a permutation of the input (same length,
same multiset: nothing lost, duplicated or created), in nondecreasing key
order for reverse = false and nonincreasing key order for reverse = true;
the empty list sorts to the empty list and a singleton to itself.  The
input value itself is untouched (the Python code copies it with
list(items) before swapping or merging). -/
theorem claim_C5 {T K : Type} [LinearOrder K] (items : List T)
    (key : T → K) (reverse : Bool) :
    (BubbleSort.sort items key reverse).Perm items ∧
    (MergeSort.sort key reverse items).Perm items ∧
    (BubbleSort.sort items key reverse).length = items.length ∧
    (MergeSort.sort key reverse items).length = items.length ∧
    (BubbleSort.sort items key reverse).Pairwise
      (fun a b => if reverse then key b ≤ key a else key a ≤ key b) ∧
    (MergeSort.sort key reverse items).Pairwise
      (fun a b => if reverse then key b ≤ key a else key a ≤ key b) ∧
    BubbleSort.sort ([] : List T) key reverse = [] ∧
    MergeSort.sort key reverse ([] : List T) = [] ∧
    (∀ x : T, BubbleSort.sort [x] key reverse = [x] ∧
      MergeSort.sort key reverse [x] = [x]) := by
  have htot := cmpLe_total key reverse
  have htrans := cmpLe_trans key reverse
  have hbp : (BubbleSort.sort items key reverse).Perm items := by
    rw [sort_eq_gbubble]
    exact gbubble_perm _ items
  have hmp : (MergeSort.sort key reverse items).Perm items := by
    rw [sort_eq_gmsort]
    exact gmsort_perm _ items
  have hconv : ∀ out : List T, SortedLe (cmpLe key reverse) out →
      out.Pairwise
        (fun a b => if reverse then key b ≤ key a else key a ≤ key b) := by
    intro out hout
    refine hout.imp ?_
    intro a b hab
    cases reverse <;> simpa [cmpLe] using hab
  refine ⟨hbp, hmp, hbp.length_eq, hmp.length_eq, ?_, ?_, rfl, ?_, ?_⟩
  · rw [sort_eq_gbubble]
    exact hconv _ (gbubble_sorted _ htot htrans items)
  · rw [sort_eq_gmsort]
    exact hconv _ (gmsort_sorted _ htot htrans items)
  · rw [MergeSort.sort]
    simp
  · intro x
    refine ⟨rfl, ?_⟩
    rw [MergeSort.sort]
    simp

end Recipe
